import Mathlib

/-
Verification of the knight-tour search program KnightTour_omp.c.

The program performs a randomized-order depth-first backtracking search
for knight tours on an LX x LY board.  Cells hold the 1-based step index
at which they were visited (0 = unvisited).  The track array holds, per
step, the position and the cursor into the shuffled move pattern.

This file shallowly embeds the data model and the operations of the
program (TryMove, AcceptMove, BackTrace, IsClosedTour, ShuffleMovePattern,
fPrintBoard, the budget check, the counter updates in the critical
section, and the per-attempt main loop) and proves properties about them.
-/

namespace KnightTour

/-- Board coordinates, mirroring the C int pair (x, y). -/
abbrev Cell := ℤ × ℤ

/-- The board: value stored at a cell (0 = unvisited, otherwise the
1-based index at which the cell was visited).  Mirrors int[LX][LY]. -/
abbrev Board := Cell → ℕ

/-- A knight displacement vector, mirroring int[2]. -/
abbrev Move := ℤ × ℤ

/-- One track entry: position (x, y) and the cursor into the move
pattern, mirroring int[3] in Track_t. -/
structure Frame where
  x : ℤ
  y : ℤ
  cursor : ℕ
deriving DecidableEq, Repr

/-- Board width, from the LX macro. -/
def LX : ℕ := 6

/-- Board height, from the LY macro. -/
def LY : ℕ := 6

/-- Number of knight moves, from the MAX_MOVE_PATTERN macro. -/
def MAX_MOVE_PATTERN : ℕ := 8

/-- Number of shuffle swaps, from the RANDOM_MOVE_PATTERN macro. -/
def RANDOM_MOVE_PATTERN : ℕ := 10

/-- The initial move pattern, from the initializer of the move array in
main: \x7b \x7b-2,-1\x7d,\x7b-2,1\x7d,\x7b-1,-2\x7d,\x7b-1,2\x7d,\x7b1,-2\x7d,\x7b1,2\x7d,\x7b2,-1\x7d,\x7b2,1\x7d \x7d. -/
def initialMove : List Move :=
  [(-2,-1), (-2,1), (-1,-2), (-1,2), (1,-2), (1,2), (2,-1), (2,1)]

/-- Pointwise update of a board cell, modelling the array store
board[c] = v. -/
def updateBoard (b : Board) (c : Cell) (v : ℕ) : Board :=
  fun d => if d = c then v else b d

/-- TryMove from the source: compute the candidate cell
(px + mx, py + my); if it is in bounds, return whether the board there
is 0 (available), otherwise return false.  px, py come from
track[step], and mx, my from move[k].  The C function takes const
pointers and mutates nothing; here it is a pure function. -/
def TryMove (lx ly : ℕ) (b : Board) (px py mx my : ℤ) : Bool :=
  let x := px + mx
  let y := py + my
  if 0 ≤ x ∧ x < (lx : ℤ) ∧ 0 ≤ y ∧ y < (ly : ℤ) then
    b (x, y) == 0
  else
    false

/-- IsClosedTour from the source: true iff |x - a| = 1 and |y - b| = 2,
or |x - a| = 2 and |y - b| = 1. -/
def IsClosedTour (x y a b : ℤ) : Bool :=
  ((x - a).natAbs == 1 && (y - b).natAbs == 2) ||
    ((x - a).natAbs == 2 && (y - b).natAbs == 1)

/-- C4: TryMove(step, k) succeeds if and only if the candidate cell
Track[step].position + MoveSet[k] is within board bounds
(0 ≤ x < width and 0 ≤ y < height) and the Board value at the candidate
is 0.  The embedding is a pure function, so no state is mutated
(the C function takes only const pointers). -/
theorem tryMove_succeeds_iff (b : Board) (px py mx my : ℤ) :
    TryMove LX LY b px py mx my = true ↔
      (0 ≤ px + mx ∧ px + mx < (LX : ℤ) ∧ 0 ≤ py + my ∧ py + my < (LY : ℤ) ∧
        b (px + mx, py + my) = 0) := by
  simp only [TryMove]
  split_ifs with h
  · simp only [beq_iff_eq]
    constructor
    · intro hb
      exact ⟨h.1, h.2.1, h.2.2.1, h.2.2.2, hb⟩
    · intro hb
      exact hb.2.2.2.2
  · constructor
    · intro hb
      exact absurd hb (by simp)
    · intro hb
      exact absurd ⟨hb.1, hb.2.1, hb.2.2.1, hb.2.2.2.1⟩ h

/-- C6: IsClosedTour(last, first) returns true iff
(|Δx|, |Δy|) ∈ \x7b(1,2), (2,1)\x7d, and it is symmetric under swapping the
two endpoints.  The embedding is a pure function of its four integer
arguments, so it reads no state and has no side effects. -/
theorem isClosedTour_iff_and_symm :
    (∀ x y a b : ℤ, IsClosedTour x y a b = true ↔
      (((x - a).natAbs, (y - b).natAbs) = (1, 2) ∨
        ((x - a).natAbs, (y - b).natAbs) = (2, 1))) ∧
    (∀ x y a b : ℤ, IsClosedTour x y a b = IsClosedTour a b x y) := by
  constructor
  · intro x y a b
    unfold IsClosedTour
    simp only [Bool.or_eq_true, Bool.and_eq_true, beq_iff_eq, Prod.mk.injEq]
  · intro x y a b
    unfold IsClosedTour
    have hx : (x - a).natAbs = (a - x).natAbs := by omega
    have hy : (y - b).natAbs = (b - y).natAbs := by omega
    rw [hx, hy]

/-- AcceptMove from the source, called as AcceptMove(++step, *k, ...):
track[step] = track[step-1] + move[k] with cursor 0, and
board[track[step]] = step + 1.  The C function mutates the arrays in
place; here it returns the updated (track, board) pair. -/
def AcceptMove (step k : ℕ) (track : ℕ → Frame) (board : Board) (move : List Move) :
    (ℕ → Frame) × Board :=
  let mv := move.getD k (0, 0)
  let px := (track (step - 1)).x + mv.1
  let py := (track (step - 1)).y + mv.2
  let track1 := fun i => if i = step then (⟨px, py, 0⟩ : Frame) else track i
  let board1 := updateBoard board (px, py) (step + 1)
  (track1, board1)

/-- BackTrace from the source: board[track[step]] = 0 and
track[step-1].cursor += 1.  Returns the updated (track, board) pair. -/
def BackTrace (step : ℕ) (track : ℕ → Frame) (board : Board) :
    (ℕ → Frame) × Board :=
  let board1 := updateBoard board ((track step).x, (track step).y) 0
  let g := track (step - 1)
  let track1 := fun i => if i = step - 1 then (⟨g.x, g.y, g.cursor + 1⟩ : Frame) else track i
  (track1, board1)

/-- C5: for every state in which AcceptMove has just placed a cell
(marking the candidate with value step+1 in the C indexing, where
AcceptMove is invoked with the already incremented step, i.e. value
(old step)+2), the matching BackTrace is an exact inverse on the board:
it zeroes precisely the cell AcceptMove marked and no other cell, and
it increments the parent frame's cursor by exactly one. -/
theorem acceptMove_backTrace_inverse (step k : ℕ) (track : ℕ → Frame) (board : Board)
    (move : List Move) (cand : Cell) (hstep : 1 ≤ step)
    (hcand : cand = ((track (step - 1)).x + (move.getD k (0, 0)).1,
                     (track (step - 1)).y + (move.getD k (0, 0)).2))
    (hempty : board cand = 0) :
    (AcceptMove step k track board move).2 cand = step + 1 ∧
    (BackTrace step (AcceptMove step k track board move).1
        (AcceptMove step k track board move).2).2 cand = 0 ∧
    (∀ c : Cell, c ≠ cand →
      (BackTrace step (AcceptMove step k track board move).1
          (AcceptMove step k track board move).2).2 c
        = (AcceptMove step k track board move).2 c) ∧
    (∀ c : Cell,
      (BackTrace step (AcceptMove step k track board move).1
          (AcceptMove step k track board move).2).2 c = board c) ∧
    ((BackTrace step (AcceptMove step k track board move).1
        (AcceptMove step k track board move).2).1 (step - 1)).cursor
      = (track (step - 1)).cursor + 1 := by
  have hne : step - 1 ≠ step := by omega
  simp only [AcceptMove, BackTrace, updateBoard]
  simp only [if_pos rfl, if_neg hne]
  generalize hmv : move.getD k (0, 0) = mv
  rw [hmv] at hcand
  refine ⟨by rw [hcand]; simp, by rw [hcand]; simp, ?_, ?_, rfl⟩
  · intro c hc
    rw [hcand] at hc
    simp [hc]
  · intro c
    by_cases hc : c = cand
    · subst hc
      rw [hcand]
      simp
      rw [← hcand]
      exact hempty.symm
    · rw [hcand] at hc
      simp [hc]

/-- Witness for acceptMove_backTrace_inverse at a concrete state: start
frame (5,5) with cursor 0 everywhere, the reset board with the start
marked 1, step 1, move index 0 of the initial pattern
(candidate (3,4)). -/
theorem acceptMove_backTrace_inverse_witness :
    (1 ≤ 1 ∧
      (fun c : Cell => if c = ((5 : ℤ), (5 : ℤ)) then 1 else 0) ((3 : ℤ), (4 : ℤ)) = 0) ∧
    ((AcceptMove 1 0 (fun _ => ⟨5, 5, 0⟩)
        (fun c : Cell => if c = ((5 : ℤ), (5 : ℤ)) then 1 else 0) initialMove).2
        ((3 : ℤ), (4 : ℤ)) = 1 + 1 ∧
      (BackTrace 1 (AcceptMove 1 0 (fun _ => ⟨5, 5, 0⟩)
          (fun c : Cell => if c = ((5 : ℤ), (5 : ℤ)) then 1 else 0) initialMove).1
          (AcceptMove 1 0 (fun _ => ⟨5, 5, 0⟩)
            (fun c : Cell => if c = ((5 : ℤ), (5 : ℤ)) then 1 else 0) initialMove).2).2
          ((3 : ℤ), (4 : ℤ)) = 0 ∧
      (∀ c : Cell, c ≠ ((3 : ℤ), (4 : ℤ)) →
        (BackTrace 1 (AcceptMove 1 0 (fun _ => ⟨5, 5, 0⟩)
            (fun c : Cell => if c = ((5 : ℤ), (5 : ℤ)) then 1 else 0) initialMove).1
            (AcceptMove 1 0 (fun _ => ⟨5, 5, 0⟩)
              (fun c : Cell => if c = ((5 : ℤ), (5 : ℤ)) then 1 else 0) initialMove).2).2 c
          = (AcceptMove 1 0 (fun _ => ⟨5, 5, 0⟩)
              (fun c : Cell => if c = ((5 : ℤ), (5 : ℤ)) then 1 else 0) initialMove).2 c) ∧
      (∀ c : Cell,
        (BackTrace 1 (AcceptMove 1 0 (fun _ => ⟨5, 5, 0⟩)
            (fun c : Cell => if c = ((5 : ℤ), (5 : ℤ)) then 1 else 0) initialMove).1
            (AcceptMove 1 0 (fun _ => ⟨5, 5, 0⟩)
              (fun c : Cell => if c = ((5 : ℤ), (5 : ℤ)) then 1 else 0) initialMove).2).2 c
          = (fun c : Cell => if c = ((5 : ℤ), (5 : ℤ)) then 1 else 0) c) ∧
      ((BackTrace 1 (AcceptMove 1 0 (fun _ => ⟨5, 5, 0⟩)
          (fun c : Cell => if c = ((5 : ℤ), (5 : ℤ)) then 1 else 0) initialMove).1
          (AcceptMove 1 0 (fun _ => ⟨5, 5, 0⟩)
            (fun c : Cell => if c = ((5 : ℤ), (5 : ℤ)) then 1 else 0) initialMove).2).1
          (1 - 1)).cursor
        = ((fun _ : ℕ => (⟨5, 5, 0⟩ : Frame)) (1 - 1)).cursor + 1) :=
  ⟨⟨le_refl 1, by decide⟩,
    acceptMove_backTrace_inverse 1 0 (fun _ => ⟨5, 5, 0⟩)
      (fun c : Cell => if c = ((5 : ℤ), (5 : ℤ)) then 1 else 0) initialMove
      ((3 : ℤ), (4 : ℤ)) (le_refl 1) (by decide) (by decide)⟩

/-- Outcome of the startup budget check in main. -/
inductive MainOutcome where
  | configAbort
  | runSearch
deriving DecidableEq

/-- Mirrors the startup check of main: if
MAX_TRY >= pow(MAX_MOVE_PATTERN, LX*LY) the program prints the
configuration-error diagnostic and returns before the parallel loop
(so no unit launches and nothing is written); otherwise the parallel
search runs. -/
def mainBudgetCheck (maxTry : ℕ) : MainOutcome :=
  if MAX_MOVE_PATTERN ^ (LX * LY) ≤ maxTry then MainOutcome.configAbort
  else MainOutcome.runSearch

/-- C3 counterexample: the budget 8^(N-1) (N = LX*LY) is not strictly
smaller than 8^(N-1), so the claim predicts an abort, but the code
compares against 8^N and proceeds with the search. -/
theorem budget_check_counterexample :
    8 ^ (LX * LY - 1) ≤ 8 ^ (LX * LY - 1) ∧
    mainBudgetCheck (8 ^ (LX * LY - 1)) = MainOutcome.runSearch := by
  constructor
  · exact le_refl _
  · unfold mainBudgetCheck MAX_MOVE_PATTERN LX LY
    norm_num

/-- C3 amended: the run aborts with the configuration error (before any
unit launches, with nothing written) iff the budget is at least
8^N where N = LX*LY (the code compares against 8^N, not 8^(N-1));
otherwise the search proceeds. -/
theorem budget_check_amended (maxTry : ℕ) :
    (mainBudgetCheck maxTry = MainOutcome.configAbort ↔ 8 ^ (LX * LY) ≤ maxTry) ∧
    (mainBudgetCheck maxTry = MainOutcome.runSearch ↔ maxTry < 8 ^ (LX * LY)) := by
  unfold mainBudgetCheck MAX_MOVE_PATTERN
  split_ifs with h
  · constructor
    · simp [h]
    · simp
      omega
  · constructor
    · simp
      omega
    · simp
      omega

/-- The three shared counters of main. -/
structure Counters where
  num_found : ℕ
  num_closed : ℕ
  num_opened : ℕ
deriving DecidableEq

/-- The counters before any full-board event. -/
def initCounters : Counters := ⟨0, 0, 0⟩

/-- The counter updates inside the critical section of main:
++num_found, then ++num_closed if the tour is closed else ++num_opened. -/
def updateCounters (c : Counters) (closed : Bool) : Counters :=
  { num_found := c.num_found + 1,
    num_closed := c.num_closed + (if closed then 1 else 0),
    num_opened := c.num_opened + (if closed then 0 else 1) }

lemma counters_foldl_inv (events : List Bool) :
    ∀ c : Counters, c.num_found = c.num_closed + c.num_opened →
      (events.foldl updateCounters c).num_found
        = (events.foldl updateCounters c).num_closed
          + (events.foldl updateCounters c).num_opened := by
  induction events with
  | nil => intro c h; exact h
  | cons e rest ih =>
      intro c h
      apply ih
      cases e <;> simp [updateCounters] <;> omega

/-- C10: each full-board event increments num_found by one and exactly
one of num_closed / num_opened by one, so after any sequence of
full-board events starting from zeroed counters,
num_found = num_closed + num_opened exactly. -/
theorem counters_exact_sum (events : List Bool) :
    (∀ c : Counters,
      (updateCounters c true).num_found = c.num_found + 1 ∧
      (updateCounters c true).num_closed = c.num_closed + 1 ∧
      (updateCounters c true).num_opened = c.num_opened ∧
      (updateCounters c false).num_found = c.num_found + 1 ∧
      (updateCounters c false).num_closed = c.num_closed ∧
      (updateCounters c false).num_opened = c.num_opened + 1) ∧
    (events.foldl updateCounters initCounters).num_found
      = (events.foldl updateCounters initCounters).num_closed
        + (events.foldl updateCounters initCounters).num_opened := by
  constructor
  · intro c
    simp [updateCounters]
  · exact counters_foldl_inv events initCounters rfl

lemma tryMove_true_imp_empty (lx ly : ℕ) (b : Board) (px py mx my : ℤ)
    (h : TryMove lx ly b px py mx my = true) : b (px + mx, py + my) = 0 := by
  simp only [TryMove] at h
  split_ifs at h with hcond
  simpa using h

/-- The search state of one attempt: the board plus the stack of track
frames.  The head of the list is the frame of the current step, so the
frame for step i sits at distance (length - 1 - i) from the head, and
the current step index is length - 1. -/
structure SState where
  board : Board
  track : List Frame

/-- The state at the start of one pattern iteration in main:
ResetBoard, board[start] = 1, track[0] = start with cursor 0, step 0. -/
def initState (sx sy : ℤ) : SState :=
  { board := fun c => if c = (sx, sy) then 1 else 0,
    track := [⟨sx, sy, 0⟩] }

/-- One transition of the search loop of main:
tryFail is the cursor advance ++*k after a failed TryMove;
accept is AcceptMove(++step, *k) after a successful TryMove, marking
the candidate with value step+2 (i.e. old track length + 1) and pushing
a frame with cursor 0;
backtrack is BackTrace(step--), taken when the cursor has reached
MAX_MOVE_PATTERN or unconditionally after a full board: it zeroes the
board at the popped frame and increments the parent cursor. -/
inductive SStep (lx ly : ℕ) (move : List Move) : SState → SState → Prop
  | tryFail (b : Board) (f : Frame) (rest : List Frame)
      (hk : f.cursor < MAX_MOVE_PATTERN)
      (hfail : TryMove lx ly b f.x f.y (move.getD f.cursor (0, 0)).1
                 (move.getD f.cursor (0, 0)).2 = false) :
      SStep lx ly move ⟨b, f :: rest⟩ ⟨b, ⟨f.x, f.y, f.cursor + 1⟩ :: rest⟩
  | accept (b : Board) (f : Frame) (rest : List Frame)
      (hk : f.cursor < MAX_MOVE_PATTERN)
      (hok : TryMove lx ly b f.x f.y (move.getD f.cursor (0, 0)).1
               (move.getD f.cursor (0, 0)).2 = true) :
      SStep lx ly move ⟨b, f :: rest⟩
        ⟨updateBoard b (f.x + (move.getD f.cursor (0, 0)).1,
                        f.y + (move.getD f.cursor (0, 0)).2) (rest.length + 2),
         ⟨f.x + (move.getD f.cursor (0, 0)).1,
          f.y + (move.getD f.cursor (0, 0)).2, 0⟩ :: f :: rest⟩
  | backtrack (b : Board) (f g : Frame) (rest : List Frame)
      (hguard : f.cursor = MAX_MOVE_PATTERN ∨ (f :: g :: rest).length = lx * ly) :
      SStep lx ly move ⟨b, f :: g :: rest⟩
        ⟨updateBoard b (f.x, f.y) 0, ⟨g.x, g.y, g.cursor + 1⟩ :: rest⟩

/-- The cells occupied by the frames of a track. -/
def trackCells (tr : List Frame) : List Cell :=
  tr.map fun f => (f.x, f.y)

/-- The board contents determined by a track: the frame at step i
(counting from the bottom of the stack) holds value i+1, every other
cell holds 0.  With the head of the list being the top frame, the head
holds value length. -/
def bval : List Frame → Cell → ℕ
  | [], _ => 0
  | f :: rest, c => if c = (f.x, f.y) then (f :: rest).length else bval rest c

lemma bval_le_length (tr : List Frame) (c : Cell) : bval tr c ≤ tr.length := by
  induction tr with
  | nil => simp [bval]
  | cons f rest ih =>
      simp only [bval]
      split_ifs
      · exact le_refl _
      · exact le_trans ih (by simp)

lemma bval_eq_zero_iff (tr : List Frame) (c : Cell) :
    bval tr c = 0 ↔ c ∉ trackCells tr := by
  induction tr with
  | nil => simp [bval, trackCells]
  | cons f rest ih =>
      simp only [bval, trackCells, List.map_cons, List.mem_cons]
      split_ifs with hc
      · simp [hc]
      · rw [ih]
        simp [trackCells, hc]

lemma bval_cursor_irrelevant (f : Frame) (k : ℕ) (rest : List Frame) (c : Cell) :
    bval (⟨f.x, f.y, k⟩ :: rest) c = bval (f :: rest) c := rfl

lemma bval_exists (tr : List Frame) (v : ℕ) (hn : (trackCells tr).Nodup)
    (h1 : 1 ≤ v) (h2 : v ≤ tr.length) : ∃ c, bval tr c = v := by
  induction tr with
  | nil => simp at h2; omega
  | cons f rest ih =>
      by_cases hv : v = (f :: rest).length
      · exact ⟨(f.x, f.y), by simp [bval, hv]⟩
      · have h2' : v ≤ rest.length := by
          simp only [List.length_cons] at h2 hv
          omega
        have hn' : (trackCells rest).Nodup := by
          simp only [trackCells, List.map_cons, List.nodup_cons] at hn
          exact hn.2
        obtain ⟨c, hc⟩ := ih hn' h2'
        have hcmem : c ∈ trackCells rest := by
          by_contra hmem
          have h0 := (bval_eq_zero_iff rest c).mpr hmem
          rw [hc] at h0
          omega
        have hcne : c ≠ (f.x, f.y) := by
          intro heq
          have : (f.x, f.y) ∉ trackCells rest := by
            simp only [trackCells, List.map_cons, List.nodup_cons] at hn
            exact hn.1
          rw [heq] at hcmem
          exact this hcmem
        exact ⟨c, by simp [bval, hcne, hc]⟩

lemma bval_unique (tr : List Frame) (hn : (trackCells tr).Nodup) (v : ℕ)
    (hv : v ≠ 0) : ∀ c d : Cell, bval tr c = v → bval tr d = v → c = d := by
  induction tr with
  | nil => intro c d hc _; simp [bval] at hc; omega
  | cons f rest ih =>
      intro c d hc hd
      have hn' : (trackCells rest).Nodup := by
        simp only [trackCells, List.map_cons, List.nodup_cons] at hn
        exact hn.2
      simp only [bval] at hc hd
      split_ifs at hc hd with h1 h2 h2
      · rw [h1, h2]
      · have := bval_le_length rest d
        rw [hd] at this
        rw [← hc] at this
        simp only [List.length_cons] at this
        omega
      · have := bval_le_length rest c
        rw [hc] at this
        rw [← hd] at this
        simp only [List.length_cons] at this
        omega
      · exact ih hn' c d hc hd

/-- The inductive search invariant: the track is nonempty, its cells
are pairwise distinct, and the board is exactly the function determined
by the track (frame of step i holds value i+1, all else 0). -/
def Inv (s : SState) : Prop :=
  s.track ≠ [] ∧ (trackCells s.track).Nodup ∧ ∀ c, s.board c = bval s.track c

lemma inv_init (sx sy : ℤ) : Inv (initState sx sy) := by
  refine ⟨by simp [initState], by simp [trackCells, initState], ?_⟩
  intro c
  simp only [initState, bval]
  split_ifs <;> rfl

lemma inv_step (lx ly : ℕ) (move : List Move) (s t : SState)
    (hst : SStep lx ly move s t) (hs : Inv s) : Inv t := by
  obtain ⟨hne, hnd, hb⟩ := hs
  cases hst with
  | tryFail b f rest hk hfail =>
      exact ⟨by simp, hnd, hb⟩
  | accept b f rest hk hok =>
      have hb' : ∀ c, b c = bval (f :: rest) c := hb
      have hnd' : (trackCells (f :: rest)).Nodup := hnd
      have hz : b (f.x + (move.getD f.cursor (0, 0)).1,
                   f.y + (move.getD f.cursor (0, 0)).2) = 0 :=
        tryMove_true_imp_empty lx ly b f.x f.y _ _ hok
      have hnotin : (f.x + (move.getD f.cursor (0, 0)).1,
                     f.y + (move.getD f.cursor (0, 0)).2) ∉ trackCells (f :: rest) := by
        rw [← bval_eq_zero_iff]
        rw [← hb']
        exact hz
      refine ⟨by simp, ?_, ?_⟩
      · simp only [trackCells, List.map_cons, List.nodup_cons]
        constructor
        · exact fun hmem => hnotin (by simpa [trackCells] using hmem)
        · simpa [trackCells] using hnd'
      · intro c
        simp only [updateBoard, bval, List.length_cons]
        split_ifs with hc hcf
        · rfl
        · rw [hb' c]
          simp [bval, hcf]
        · rw [hb' c]
          simp [bval, hcf]
  | backtrack b f g rest hguard =>
      have hb' : ∀ c, b c = bval (f :: g :: rest) c := hb
      have hnd0 : (trackCells (f :: g :: rest)).Nodup := hnd
      have hfg : (f.x, f.y) ∉ trackCells (g :: rest) := by
        simp only [trackCells, List.map_cons, List.nodup_cons] at hnd0
        simpa [trackCells] using hnd0.1
      have hnd' : (trackCells (g :: rest)).Nodup := by
        simp only [trackCells, List.map_cons, List.nodup_cons] at hnd0
        simp only [trackCells, List.map_cons, List.nodup_cons]
        exact hnd0.2
      refine ⟨by simp, ?_, ?_⟩
      · simpa [trackCells] using hnd'
      · intro c
        simp only [updateBoard]
        split_ifs with hc
        · rw [bval_cursor_irrelevant g]
          symm
          rw [bval_eq_zero_iff]
          rw [hc]
          exact hfg
        · rw [hb' c]
          rw [bval_cursor_irrelevant g]
          simp only [bval, List.length_cons]
          rw [if_neg hc]

lemma inv_reach (lx ly : ℕ) (move : List Move) (sx sy : ℤ) (s : SState)
    (h : Relation.ReflTransGen (SStep lx ly move) (initState sx sy) s) : Inv s := by
  induction h with
  | refl => exact inv_init sx sy
  | tail hab hstep ih => exact inv_step lx ly move _ _ hstep ih

/-- C1: in every search state reachable from the reset board (start
cell marked 1, cursor 0) by TryMove / AcceptMove / Backtrack
transitions, the nonzero board values are exactly \x7b1, ..., s+1\x7d with no
duplicates, where s is the current step index (s+1 = track length); in
particular at a full-board event (step = LX*LY - 1) they are exactly
\x7b1, ..., LX*LY\x7d. -/
theorem board_values_exact (move : List Move) (sx sy : ℤ) (s : SState)
    (h : Relation.ReflTransGen (SStep LX LY move) (initState sx sy) s) :
    (∀ v : ℕ, v ≠ 0 → ((∃ c, s.board c = v) ↔ 1 ≤ v ∧ v ≤ s.track.length)) ∧
    (∀ v : ℕ, v ≠ 0 → ∀ c d : Cell, s.board c = v → s.board d = v → c = d) ∧
    (s.track.length - 1 = LX * LY - 1 →
      ∀ v : ℕ, v ≠ 0 → ((∃ c, s.board c = v) ↔ 1 ≤ v ∧ v ≤ LX * LY)) := by
  obtain ⟨hne, hnd, hb⟩ := inv_reach LX LY move sx sy s h
  have main : ∀ v : ℕ, v ≠ 0 →
      ((∃ c, s.board c = v) ↔ 1 ≤ v ∧ v ≤ s.track.length) := by
    intro v hv
    constructor
    · rintro ⟨c, hc⟩
      rw [hb c] at hc
      have := bval_le_length s.track c
      rw [hc] at this
      exact ⟨by omega, this⟩
    · rintro ⟨h1, h2⟩
      obtain ⟨c, hc⟩ := bval_exists s.track v hnd h1 h2
      exact ⟨c, by rw [hb c]; exact hc⟩
  refine ⟨main, ?_, ?_⟩
  · intro v hv c d hc hd
    rw [hb c] at hc
    rw [hb d] at hd
    exact bval_unique s.track hnd v hv c d hc hd
  · intro hlen v hv
    have hpos : 1 ≤ s.track.length := List.length_pos.mpr hne
    have hN : s.track.length = LX * LY := by
      have h36 : LX * LY = 36 := rfl
      omega
    rw [← hN]
    exact main v hv

/-- Witness for board_values_exact: the reset state itself (start
(5,5), the start of main's attempts) is reachable by the empty
transition sequence, and the conclusion holds there. -/
theorem board_values_exact_witness :
    (∀ v : ℕ, v ≠ 0 →
      ((∃ c, (initState 5 5).board c = v) ↔ 1 ≤ v ∧ v ≤ (initState 5 5).track.length)) ∧
    (∀ v : ℕ, v ≠ 0 → ∀ c d : Cell,
      (initState 5 5).board c = v → (initState 5 5).board d = v → c = d) ∧
    ((initState 5 5).track.length - 1 = LX * LY - 1 →
      ∀ v : ℕ, v ≠ 0 → ((∃ c, (initState 5 5).board c = v) ↔ 1 ≤ v ∧ v ≤ LX * LY)) :=
  board_values_exact initialMove 5 5 (initState 5 5) Relation.ReflTransGen.refl

/-- Output of the inner loop of fPrintBoard on the list of cell values
of a row: each value printed with the format string of one value then
one space. -/
def rowOut : List ℕ → String
  | [] => ""
  | v :: rest => toString v ++ " " ++ rowOut rest

/-- fPrintBoard from the source, as the string it appends to the file:
for j = LY-1 down to 0 print the row board[0][j] .. board[LX-1][j]
(each value followed by one space), then a newline; after the rows one
extra blank line. -/
def fPrintBoard (lx ly : ℕ) (b : Board) : String :=
  String.join (((List.range ly).reverse).map
    fun j => rowOut ((List.range lx).map fun i => b ((i : ℤ), (j : ℤ))) ++ "\n") ++ "\n"

/-- The effect of the critical section of main on the result sink at a
full-board event: if the tour is classified closed, exactly one board
dump is appended, otherwise nothing is written. -/
def criticalAppend (closed : Bool) (b : Board) (out : String) : String :=
  if closed then out ++ fPrintBoard LX LY b else out

/-- Following the words of the spec, for comparison with rowOut: a row
as the cell values separated by single spaces (no trailing space). -/
def specRowOut : List ℕ → String
  | [] => ""
  | [v] => toString v
  | v :: w :: t => toString v ++ " " ++ specRowOut (w :: t)

/-- Following the words of the spec, for comparison with fPrintBoard:
height lines, rows from the highest row index down to 0, each line the
width cell values separated by single spaces, then one blank line. -/
def specDump (lx ly : ℕ) (b : Board) : String :=
  String.join (((List.range ly).reverse).map
    fun j => specRowOut ((List.range lx).map fun i => b ((i : ℤ), (j : ℤ))) ++ "\n") ++ "\n"

/-- C7 counterexample: on the all-zero board the dump the code appends
for a closed tour is not the spec-format dump, because every line
carries a trailing space ("0 0 0 0 0 0 " instead of "0 0 0 0 0 0"). -/
theorem fPrintBoard_counterexample :
    criticalAppend true (fun _ => 0) "" ≠ specDump LX LY (fun _ => 0) := by
  decide

lemma rowOut_eq_specRowOut (vs : List ℕ) (h : vs ≠ []) :
    rowOut vs = specRowOut vs ++ " " := by
  induction vs with
  | nil => exact absurd rfl h
  | cons v rest ih =>
      cases rest with
      | nil => simp [rowOut, specRowOut]
      | cons w t =>
          rw [rowOut, ih (by simp), specRowOut]
          simp [String.append_assoc]

/-- C7 amended: for a full-board event classified closed — and only
those, open tours write nothing — exactly one board dump is appended:
height lines, rows from the highest row index down to row 0, each line
the width cell values of one row separated by single spaces and
followed by one trailing space, then one blank separator line. -/
theorem fPrintBoard_amended (b : Board) (out : String) :
    criticalAppend true b out = out ++ fPrintBoard LX LY b ∧
    criticalAppend false b out = out ∧
    fPrintBoard LX LY b
      = String.join (((List.range LY).reverse).map
          fun j => specRowOut ((List.range LX).map fun i => b ((i : ℤ), (j : ℤ))) ++ " \n")
        ++ "\n" := by
  refine ⟨rfl, rfl, ?_⟩
  unfold fPrintBoard
  congr 1
  congr 1
  apply List.map_congr_left
  intro j _
  rw [rowOut_eq_specRowOut _ (by simp [LX]; exact ⟨0, by norm_num⟩)]
  rw [String.append_assoc]
  congr 1

/-- One iteration of the loop of ShuffleMovePattern: exchange move[a]
and move[b] through the temporary save. -/
def swapMove (move : List Move) (a b : ℕ) : List Move :=
  let save := move.getD a (0, 0)
  let move1 := move.set a (move.getD b (0, 0))
  move1.set b save

/-- ShuffleMovePattern from the source: RANDOM_MOVE_PATTERN successive
swaps, the two indices of each swap drawn from the random stream and
reduced modulo MAX_MOVE_PATTERN.  One call consumes exactly
RANDOM_MOVE_PATTERN pairs of draws, supplied here as the draws list. -/
def ShuffleMovePattern (draws : List (ℕ × ℕ)) (move : List Move) : List Move :=
  draws.foldl
    (fun m ab => swapMove m (ab.1 % MAX_MOVE_PATTERN) (ab.2 % MAX_MOVE_PATTERN)) move

/-- C8 counterexample: the draw sequence that picks a = b = 0 for all
RANDOM_MOVE_PATTERN swaps leaves the move pattern exactly as it was,
so not every invocation changes the exploration order. -/
theorem shuffle_counterexample :
    ShuffleMovePattern (List.replicate RANDOM_MOVE_PATTERN (0, 0)) initialMove
      = initialMove := by
  decide

lemma cons_getD_set_perm (t : List Move) (j : ℕ) (hj : j < t.length) (x : Move) :
    (t.getD j (0, 0) :: t.set j x).Perm (x :: t) := by
  induction t generalizing j with
  | nil => simp at hj
  | cons y t ih =>
      cases j with
      | zero => simpa [List.getD] using List.Perm.swap x y t
      | succ j =>
          have hj' : j < t.length := by simpa using hj
          have step1 : (t.getD j (0, 0) :: y :: t.set j x).Perm
              (y :: t.getD j (0, 0) :: t.set j x) := List.Perm.swap _ _ _
          have step2 : (y :: t.getD j (0, 0) :: t.set j x).Perm (y :: x :: t) :=
            (ih j hj').cons y
          have step3 : (y :: x :: t).Perm (x :: y :: t) := List.Perm.swap _ _ _
          simpa [List.getD] using (step1.trans step2).trans step3

lemma swapMove_perm (l : List Move) : ∀ a b : ℕ, a < l.length → b < l.length →
    (swapMove l a b).Perm l := by
  induction l with
  | nil => intro a b ha _; simp at ha
  | cons x t ih =>
      intro a b ha hb
      cases a with
      | zero =>
          cases b with
          | zero => simp [swapMove, List.getD]
          | succ j =>
              have hj : j < t.length := by simpa using hb
              simpa [swapMove, List.getD] using cons_getD_set_perm t j hj x
      | succ i =>
          have hi : i < t.length := by simpa using ha
          cases b with
          | zero =>
              simpa [swapMove, List.getD] using cons_getD_set_perm t i hi x
          | succ j =>
              have hj : j < t.length := by simpa using hb
              have inner := ih i j hi hj
              simpa [swapMove, List.getD] using inner.cons x

lemma shuffle_foldl_perm (draws : List (ℕ × ℕ)) :
    ∀ l : List Move, l.length = 8 → (ShuffleMovePattern draws l).Perm l := by
  induction draws with
  | nil => intro l _; exact List.Perm.refl l
  | cons d rest ih =>
      intro l hl
      have hmod1 : d.1 % MAX_MOVE_PATTERN < l.length := by
        rw [hl]
        exact Nat.mod_lt _ (by decide)
      have hmod2 : d.2 % MAX_MOVE_PATTERN < l.length := by
        rw [hl]
        exact Nat.mod_lt _ (by decide)
      have hsw := swapMove_perm l (d.1 % MAX_MOVE_PATTERN) (d.2 % MAX_MOVE_PATTERN)
        hmod1 hmod2
      have hlen : (swapMove l (d.1 % MAX_MOVE_PATTERN) (d.2 % MAX_MOVE_PATTERN)).length
          = 8 := hsw.length_eq.trans hl
      exact (ih _ hlen).trans hsw

/-- C8 amended: every call of ShuffleMovePattern leaves the move
pattern an ordered rearrangement (permutation) of the same 8 knight
vectors, and some draw sequences of the RANDOM_MOVE_PATTERN swaps
change the exploration order, but not every call changes it: draws
with a = b in every swap leave the order exactly as before. -/
theorem shuffle_perm_and_can_change :
    (∀ draws : List (ℕ × ℕ), (ShuffleMovePattern draws initialMove).Perm initialMove) ∧
    (∃ draws : List (ℕ × ℕ), draws.length = RANDOM_MOVE_PATTERN ∧
      ShuffleMovePattern draws initialMove ≠ initialMove) := by
  constructor
  · intro draws
    exact shuffle_foldl_perm draws initialMove rfl
  · refine ⟨(0, 1) :: List.replicate 9 (0, 0), by decide, by decide⟩

/-- The per-attempt state of the search loop of main: board, track
(indexed by ℤ so that the out-of-bounds index -1 is expressible), the
current step, and the move-evaluation counter num_try.  The pointer k
of the source always equals the address of track[step].cursor, so it
is not modelled separately. -/
structure RState where
  board : Board
  track : ℤ → Frame
  step : ℤ
  numTry : ℕ

/-- Store a frame at a track index. -/
def updTrack (t : ℤ → Frame) (i : ℤ) (f : Frame) : ℤ → Frame :=
  fun j => if j = i then f else t j

/-- The state at the start of one pattern iteration of main:
reset board with the start cell marked 1, track[0] = start with cursor
0, step 0, num_try 0.  Track entries other than index 0 are
uninitialized in the source and are never read before being written;
they are defaulted here. -/
def initR (sx sy : ℤ) : RState :=
  { board := fun c => if c = (sx, sy) then 1 else 0,
    track := fun i => if i = 0 then ⟨sx, sy, 0⟩ else ⟨0, 0, 0⟩,
    step := 0,
    numTry := 0 }

/-- One BackTrace(step--) call of main on the attempt state:
board[track[step]] = 0, track[step-1].cursor += 1, step decremented. -/
def btR (s : RState) : RState :=
  { board := updateBoard s.board ((s.track s.step).x, (s.track s.step).y) 0,
    track := updTrack s.track (s.step - 1)
      ⟨(s.track (s.step - 1)).x, (s.track (s.step - 1)).y,
       (s.track (s.step - 1)).cursor + 1⟩,
    step := s.step - 1,
    numTry := s.numTry }

/-- Result of one of the inner loops of main on the attempt state. -/
inductive CasRes where
  | ok (s : RState)
  | oob
  | fuelOut

/-- The cascading backtrack loop of main: while the current cursor has
reached MAX_MOVE_PATTERN, BackTrace(step--).  The source has no check
for step = 0: BackTrace(0) increments track[-1].cursor, an
out-of-bounds write, reported here as oob. -/
def cascade : ℕ → RState → CasRes
  | 0, _ => CasRes.fuelOut
  | fuel + 1, s =>
      if (s.track s.step).cursor = MAX_MOVE_PATTERN then
        if s.step = 0 then CasRes.oob
        else cascade fuel (btR s)
      else CasRes.ok s

/-- The move-rejection loop of main: while TryMove fails, ++num_try,
advance the cursor, and run the cascading backtrack whenever the
cursor reaches MAX_MOVE_PATTERN. -/
def failLoop (lx ly : ℕ) (move : List Move) : ℕ → RState → CasRes
  | 0, _ => CasRes.fuelOut
  | fuel + 1, s =>
      let f := s.track s.step
      let mv := move.getD f.cursor (0, 0)
      if TryMove lx ly s.board f.x f.y mv.1 mv.2 then CasRes.ok s
      else
        let s1 : RState :=
          { s with numTry := s.numTry + 1,
                   track := updTrack s.track s.step ⟨f.x, f.y, f.cursor + 1⟩ }
        match cascade fuel s1 with
        | CasRes.ok s2 => failLoop lx ly move fuel s2
        | CasRes.oob => CasRes.oob
        | CasRes.fuelOut => CasRes.fuelOut

/-- The k = AcceptMove(++step, *k, ...) call of main on the attempt
state: step incremented first, then track[step] = track[step-1] +
move[k] with cursor 0 and board[track[step]] = step + 1, where k is
the cursor of the frame the move was tried from. -/
def acceptR (move : List Move) (s : RState) : RState :=
  let k := (s.track s.step).cursor
  let newStep := s.step + 1
  let mv := move.getD k (0, 0)
  let px := (s.track (newStep - 1)).x + mv.1
  let py := (s.track (newStep - 1)).y + mv.2
  { s with step := newStep,
           track := updTrack s.track newStep ⟨px, py, 0⟩,
           board := updateBoard s.board (px, py) (newStep + 1).toNat }

/-- How one attempt of main ends in the embedding. -/
inductive RunRes where
  | budgetStop
  | oob
  | fuelOut
deriving DecidableEq

/-- The while(num_try < MAX_TRY) loop of main for one attempt (one
start and one move pattern): run the move-rejection loop, accept the
found move, and on a full board force one BackTrace followed by the
cascading backtrack (the critical-section reporting has no effect on
the attempt state and is omitted).  The only exits of the source loop
are the budget test (budgetStop) and, implicitly, the out-of-bounds
track[-1] access of BackTrace(0) when the whole search space is
exhausted (oob). -/
def runAttempt (lx ly : ℕ) (move : List Move) (maxTry : ℕ) : ℕ → RState → RunRes
  | 0, _ => RunRes.fuelOut
  | fuel + 1, s =>
      if maxTry ≤ s.numTry then RunRes.budgetStop
      else
        match failLoop lx ly move fuel s with
        | CasRes.oob => RunRes.oob
        | CasRes.fuelOut => RunRes.fuelOut
        | CasRes.ok s1 =>
            let s2 := acceptR move { s1 with numTry := s1.numTry + 1 }
            if s2.step = (lx * ly : ℤ) - 1 then
              if s2.step = 0 then RunRes.oob
              else
                match cascade fuel (btR s2) with
                | CasRes.ok s3 => runAttempt lx ly move maxTry fuel s3
                | CasRes.oob => RunRes.oob
                | CasRes.fuelOut => RunRes.fuelOut
            else runAttempt lx ly move maxTry fuel s2

/-- C2 failing input: on a 2 x 2 board (an even cell count, as the
configuration comment of the source requires) with start (0,0), the
identity move pattern and budget 100 (well below 8^4), every knight
move from the start leaves the board, so the attempt exhausts its
search space immediately — and instead of stopping cleanly, the code
reaches BackTrace with step = 0, which writes track[-1].cursor out of
bounds. -/
theorem runAttempt_2x2_oob :
    runAttempt 2 2 initialMove 100 50 (initR 0 0) = RunRes.oob := by
  decide

end KnightTour
